import Mathlib

/-!
Verification of the core logic of a voice-archive search system
(`voice_archive.py`, `evaluate.py`, `app.py`).

The Python source is shallowly embedded:
* times and scores (Python floats) become rationals `ℚ`;
* IR metric values (computed with `math.log2`) become reals `ℝ`,
  with `Real.logb 2` standing for `math.log2`;
* Python lists become `List`, `None`-able values become `Option`;
* the regex-based PII redactor is embedded by a small fuel-driven
  backtracking matcher that follows Python `re` semantics (leftmost
  match, backtracking priority with greedy/lazy repetition,
  non-overlapping substitution) for the constructs the five patterns
  actually use.
-/

namespace VoiceArchive

/-! ## Data model (`voice_archive.py`, `@dataclass Segment`, Deepgram words)

A Deepgram word object carries `.word`, `.start`, `.end`, `.speaker`.
`end` is a Lean keyword, so the field is called `stop` here.
-/

structure Word where
  word : String
  start : ℚ
  stop : ℚ
  speaker : Option String
deriving DecidableEq, Repr

structure Segment where
  speaker : Option String
  start : ℚ
  stop : ℚ
  text : String
  file : String
  session : String
deriving DecidableEq, Repr

/-! ## Segmenter (`_group_words_into_segments`)

The Python loop keeps `segments`, `buf`, `seg_start`, `seg_speaker`.
`seg_start`/`seg_speaker` are initialized to `None` in the source and
are never read before being assigned (they are only read when `buf` is
non-empty, and every assignment of `buf` assigns them too); the initial
state here uses `0`/`none` for them.
-/

structure GState where
  segments : List Segment
  buf : List Word
  seg_start : ℚ
  seg_speaker : Option String
deriving DecidableEq, Repr

/-- `" ".join(x.word for x in buf)` -/
def joinWords (ws : List Word) : String :=
  String.intercalate " " (ws.map Word.word)

/-- The body of the `for w in words` loop of `_group_words_into_segments`.
`getattr(buf[-1], "end", seg_start)` becomes a `getLast?`/`getD` chain with
the same default. -/
def step (file_name session_id : String) (max_gap max_duration : ℚ)
    (st : GState) (w : Word) : GState :=
  match st.buf with
  | [] => { st with buf := [w], seg_start := w.start, seg_speaker := w.speaker }
  | _ :: _ =>
    let lastEnd := ((st.buf.getLast?).map Word.stop).getD st.seg_start
    let duration := w.stop - st.seg_start
    if w.start - lastEnd > max_gap ∨ duration > max_duration ∨ w.speaker ≠ st.seg_speaker then
      { segments := st.segments ++
          [⟨st.seg_speaker, st.seg_start, lastEnd, joinWords st.buf, file_name, session_id⟩],
        buf := [w], seg_start := w.start, seg_speaker := w.speaker }
    else
      { st with buf := st.buf ++ [w] }

/-- `_group_words_into_segments(words, file_name, session_id, max_gap=1.0,
max_duration=20.0)`: the loop above followed by the trailing-buffer flush
(`if buf:` at the end of the source). -/
def group_words_into_segments (words : List Word) (file_name session_id : String)
    (max_gap : ℚ := 1) (max_duration : ℚ := 20) : List Segment :=
  let final := words.foldl (step file_name session_id max_gap max_duration) ⟨[], [], 0, none⟩
  match final.buf with
  | [] => final.segments
  | _ :: _ =>
    final.segments ++
      [⟨final.seg_speaker, final.seg_start,
        ((final.buf.getLast?).map Word.stop).getD final.seg_start,
        joinWords final.buf, file_name, session_id⟩]

/-! ## Redactor (`class Redactor`, `redact_text`, `redact_segments`)

The five `re.compile` patterns of `Redactor.__init__` use only these regex
constructs: single-character classes, concatenation, counted repetition
`{m,n}` / `{m,}` / `+` / `*?` / `?` (greedy and lazy), the word-boundary
assertion `\b`, and one negative lookbehind `(?<!\d)`.  They are embedded as
an explicit AST and executed by a fuel-driven backtracking matcher whose
alternative ordering follows Python `re`: greedy repetition prefers longer
matches, lazy repetition prefers shorter ones, and `re.sub` replaces the
leftmost match, then continues scanning right after it (non-overlapping).
-/

inductive RE : Type where
  | eps : RE
  | cls : (Char → Bool) → RE
  | cat : RE → RE → RE
  | rep : ℕ → Option ℕ → Bool → RE → RE
  | wb : RE
  | nlb : (Char → Bool) → RE

/-- Python `\w` on the ASCII strings handled here (`[A-Za-z0-9_]`). -/
def isWordChar (c : Char) : Bool :=
  c.isAlphanum || c == '_'

/-- Whether a `\b` word boundary sits between the reversed left context and
the remaining input. -/
def atBoundary (left right : List Char) : Bool :=
  let l := match left with | [] => false | c :: _ => isWordChar c
  let r := match right with | [] => false | c :: _ => isWordChar c
  l != r

/-- Backtracking matcher in continuation-passing style.  `left` is the
reversed prefix already consumed (kept for `\b` and the lookbehind), `right`
the remaining input.  Alternatives are explored in Python `re` priority
order, and the first success of the continuation wins. -/
def mrun : ℕ → RE → List Char → List Char →
    (List Char → List Char → Option (List Char × List Char)) →
    Option (List Char × List Char)
  | 0, _, _, _, _ => none
  | _ + 1, RE.eps, left, right, k => k left right
  | _ + 1, RE.cls p, left, right, k =>
    match right with
    | [] => none
    | c :: rest => if p c then k (c :: left) rest else none
  | f + 1, RE.cat a b, left, right, k =>
    mrun f a left right (fun l r => mrun f b l r k)
  | _ + 1, RE.wb, left, right, k =>
    if atBoundary left right then k left right else none
  | _ + 1, RE.nlb p, left, right, k =>
    match left with
    | [] => k left right
    | c :: _ => if p c then none else k left right
  | f + 1, RE.rep lo hi g body, left, right, k =>
    match lo with
    | m + 1 =>
      mrun f body left right (fun l r => mrun f (RE.rep m (hi.map (· - 1)) g body) l r k)
    | 0 =>
      match hi with
      | some 0 => k left right
      | _ =>
        let more := fun _ : Unit =>
          mrun f body left right (fun l r => mrun f (RE.rep 0 (hi.map (· - 1)) g body) l r k)
        if g then (more ()).orElse (fun _ => k left right)
        else (k left right).orElse more

/-- One step of `pattern.sub(repl, text)`: scan left to right, at each
position try the pattern; on a match emit the replacement and continue right
after it (an empty match also consumes one input character, as in Python). -/
def subRun (re : RE) (repl : List Char) : ℕ → List Char → List Char → List Char
  | 0, _, right => right
  | f + 1, left, right =>
    match mrun 1000 re left right (fun l r => some (l, r)) with
    | some (l2, r2) =>
      if r2.length < right.length then repl ++ subRun re repl f l2 r2
      else
        match right with
        | [] => repl
        | c :: rest => repl ++ (c :: subRun re repl f (c :: left) rest)
    | none =>
      match right with
      | [] => []
      | c :: rest => c :: subRun re repl f (c :: left) rest

/-- `pattern.sub(repl, s)` for a whole string. -/
def pySub (re : RE) (repl : String) (s : String) : String :=
  ⟨subRun re repl.data (s.data.length + 1) [] s.data⟩

/-- Sequence `a` then `b` then ... for a list of regex pieces. -/
def cats (l : List RE) : RE :=
  l.foldr RE.cat RE.eps

/-- A literal character. -/
def chr (c : Char) : RE :=
  RE.cls (fun x => x == c)

/-- `re.compile(r"\b(?:\d[ -]*?){13,16}\b")` (credit cards). -/
def cardRE : RE :=
  cats [RE.wb,
        RE.rep 13 (some 16) true
          (RE.cat (RE.cls Char.isDigit)
            (RE.rep 0 none false (RE.cls (fun c => c == ' ' || c == '-')))),
        RE.wb]

/-- `re.compile(r"\b\d{3}-\d{2}-\d{4}\b")` (US SSNs). -/
def ssnRE : RE :=
  cats [RE.wb,
        RE.rep 3 (some 3) true (RE.cls Char.isDigit), chr '-',
        RE.rep 2 (some 2) true (RE.cls Char.isDigit), chr '-',
        RE.rep 4 (some 4) true (RE.cls Char.isDigit), RE.wb]

/-- `re.compile(r"\b[A-Za-z0-9._%+-]+@[A-Za-z0-9.-]+\.[A-Za-z]{2,}\b")` (emails). -/
def emailRE : RE :=
  cats [RE.wb,
        RE.rep 1 none true
          (RE.cls (fun c => c.isAlphanum || c == '.' || c == '_' || c == '%' ||
            c == '+' || c == '-')),
        chr '@',
        RE.rep 1 none true (RE.cls (fun c => c.isAlphanum || c == '.' || c == '-')),
        chr '.',
        RE.rep 2 none true (RE.cls Char.isAlpha), RE.wb]

/-- `re.compile(r"(?<!\d)(\+?\d[\d\s\-\(\).]{8,}\d)")` (phone numbers). -/
def phoneRE : RE :=
  cats [RE.nlb Char.isDigit,
        RE.rep 0 (some 1) true (chr '+'),
        RE.cls Char.isDigit,
        RE.rep 8 none true
          (RE.cls (fun c => c.isDigit || c.isWhitespace || c == '-' || c == '(' ||
            c == ')' || c == '.')),
        RE.cls Char.isDigit]

/-- `re.compile(r"\b(?:\d{1,3}\.){3}\d{1,3}\b")` (IPv4 addresses). -/
def ipRE : RE :=
  cats [RE.wb,
        RE.rep 3 (some 3) true
          (RE.cat (RE.rep 1 (some 3) true (RE.cls Char.isDigit)) (chr '.')),
        RE.rep 1 (some 3) true (RE.cls Char.isDigit), RE.wb]

/-- `self.patterns` of `Redactor.__init__`, in source order. -/
def redactorPatterns : List (RE × String) :=
  [(cardRE, "[CARD]"), (ssnRE, "[SSN]"), (emailRE, "[EMAIL]"),
   (phoneRE, "[PHONE]"), (ipRE, "[IP]")]

namespace Redactor

/-- `Redactor.redact`: apply every pattern's substitution in order. -/
def redact (text : String) : String :=
  redactorPatterns.foldl (fun acc pr => pySub pr.1 pr.2 acc) text

end Redactor

/-- `redact_segments(segments)`: when the global `REDACT_PII` switch (here the
`redact_pii` argument; it defaults to on in the source) is enabled, build a new
list of new `Segment` values whose `text` is redacted and whose other fields
are copied; when disabled, return the input unchanged. -/
def redact_segments (redact_pii : Bool) (segments : List Segment) : List Segment :=
  if redact_pii then
    segments.map (fun s =>
      ⟨s.speaker, s.start, s.stop, Redactor.redact s.text, s.file, s.session⟩)
  else segments

/-! ## Indexing pipeline (`upsert_segments`)

`generate_embeddings` calls the external Cohere service; per the embedding
boundary contract it returns one vector per input text, in order, which is
modelled by mapping an arbitrary `embed : String → List ℚ` over the texts.
`index.upsert` sends the built `pine_vectors` to the external vector store;
the embedding here returns that list (the source returns its length). -/

structure Meta where
  text : String
  speaker : String
  start : ℚ
  stop : ℚ
  file : String
  session : String
deriving DecidableEq, Repr

structure IndexRecord where
  id : String
  values : List ℚ
  metadata : Meta
deriving DecidableEq, Repr

/-- `upsert_segments(namespace, segments)` up to the external upsert call:
redact, drop whitespace-only texts, embed, and build the Pinecone records
(`id = f"{seg.session}:{seg.file}:{i}"` for `i, (seg, vec) in
enumerate(zip(segments, vectors))`). -/
def upsert_segments (embed : String → List ℚ) (redact_pii : Bool)
    (segments : List Segment) : List IndexRecord :=
  let segs := redact_segments redact_pii segments
  match segs with
  | [] => []
  | _ :: _ =>
    -- `if s.text.strip()` keeps a segment iff its text has a non-whitespace
    -- character (Python string truthiness of the stripped text).
    let texts := (segs.filter (fun s => s.text.data.any (fun c => !c.isWhitespace))).map Segment.text
    match texts with
    | [] => []
    | _ :: _ =>
      let vectors := texts.map embed
      (segs.zip vectors).enum.map (fun p =>
        { id := p.2.1.session ++ ":" ++ p.2.1.file ++ ":" ++ toString p.1,
          values := p.2.2,
          metadata := { text := p.2.1.text, speaker := p.2.1.speaker.getD "unknown",
                        start := p.2.1.start, stop := p.2.1.stop,
                        file := p.2.1.file, session := p.2.1.session } })

/-! ## Retrieval filter (`app.py`, `search_archives`) -/

structure Match where
  id : String
  score : Option ℚ
  metadata : Meta
deriving DecidableEq, Repr

/-- `[m for m in matches if m.score is not None and m.score >= threshold]`
(`matches` is a Lean keyword, hence the argument name `ms`). -/
def filtered_matches (ms : List Match) (threshold : ℚ) : List Match :=
  ms.filter (fun m =>
    match m.score with
    | none => false
    | some s => decide (s ≥ threshold))

/-! ## Evaluation metrics (`evaluate.py`)

Python floats and `math.log2` become `ℝ` and `Real.logb 2`. -/

/-- `dcg(relevances)`: `sum(rel / math.log2(idx + 2) for idx, rel in
enumerate(relevances))`. -/
noncomputable def dcg (relevances : List ℝ) : ℝ :=
  (relevances.enum.map (fun p => p.2 / Real.logb 2 ((p.1 : ℝ) + 2))).sum

/-- `ndcg_at_k(pred_ids, gold_ids, k)`.  `sorted(gains, reverse=True)` is a
descending sort, embedded with `List.insertionSort` on the flipped order. -/
noncomputable def ndcg_at_k (pred_ids : List String) (gold_ids : Finset String)
    (k : ℤ) : ℝ :=
  if k ≤ 0 then 0
  else
    let pred_k := pred_ids.take k.toNat
    let gains : List ℝ := pred_k.map (fun pid => if pid ∈ gold_ids then 1 else 0)
    let ideal_gains := List.insertionSort (fun a b => b ≤ a) gains
    let idcg := dcg ideal_gains
    if idcg = 0 then 0 else dcg gains / idcg

/-! ## Segmenter loop invariant

The segments the loop emits are exactly the images of a partition of the
input words into consecutive non-empty chunks. -/

/-- The segment the source emits for a flushed buffer chunk `c`: speaker and
start time of its first word, stop time of its last word, joined text. -/
def segOfChunk (file_name session_id : String) (c : List Word) : Segment :=
  { speaker := c.head?.bind Word.speaker
    start := ((c.head?).map Word.start).getD 0
    stop := ((c.getLast?).map Word.stop).getD 0
    text := joinWords c
    file := file_name
    session := session_id }

/-- Ties `seg_start`/`seg_speaker` to the first buffered word, and bounds the
span of a multi-word buffer by `max_duration`. -/
def BufOk (md : ℚ) (st : GState) : Prop :=
  st.buf ≠ [] →
    st.seg_start = ((st.buf.head?).map Word.start).getD 0 ∧
    st.seg_speaker = st.buf.head?.bind Word.speaker ∧
    (2 ≤ st.buf.length →
      (((st.buf.getLast?).map Word.stop).getD st.seg_start) - st.seg_start ≤ md)

/-- A flushed multi-word chunk spans at most `max_duration`. -/
def ChunkOk (md : ℚ) (c : List Word) : Prop :=
  2 ≤ c.length →
    (((c.getLast?).map Word.stop).getD 0) - (((c.head?).map Word.start).getD 0) ≤ md

/-- Loop invariant of `_group_words_into_segments`. -/
def Inv (f s : String) (md : ℚ) (processed : List Word) (st : GState) : Prop :=
  ∃ chunks : List (List Word),
    (∀ c ∈ chunks, c ≠ []) ∧
    chunks.flatten ++ st.buf = processed ∧
    st.segments = chunks.map (segOfChunk f s) ∧
    (∀ c ∈ chunks, ChunkOk md c) ∧
    BufOk md st

theorem emit_eq_segOfChunk (f s : String) (md : ℚ) (st : GState)
    (hB : BufOk md st) (hne : st.buf ≠ []) :
    (⟨st.seg_speaker, st.seg_start, (((st.buf.getLast?).map Word.stop).getD st.seg_start),
      joinWords st.buf, f, s⟩ : Segment) = segOfChunk f s st.buf := by
  obtain ⟨h1, h2, _⟩ := hB hne
  obtain ⟨lw, hlw⟩ := Option.isSome_iff_exists.1 (List.getLast?_isSome.2 hne)
  simp [segOfChunk, hlw, h1, h2]

theorem chunkOk_of_bufOk (md : ℚ) (st : GState) (hB : BufOk md st)
    (hne : st.buf ≠ []) : ChunkOk md st.buf := by
  intro hlen
  obtain ⟨h1, _, h3⟩ := hB hne
  obtain ⟨lw, hlw⟩ := Option.isSome_iff_exists.1 (List.getLast?_isSome.2 hne)
  have hd := h3 hlen
  rw [hlw] at hd ⊢
  simpa [← h1] using hd

theorem step_inv (f s : String) (mg md : ℚ) (w : Word) (p : List Word) (st : GState)
    (h : Inv f s md p st) : Inv f s md (p ++ [w]) (step f s mg md st w) := by
  obtain ⟨chunks, hne, hjoin, hsegs, hch, hbuf⟩ := h
  obtain ⟨segs, buf, ss, sp⟩ := st
  dsimp only at hjoin hsegs
  cases buf with
  | nil =>
    refine ⟨chunks, hne, ?_, ?_, hch, ?_⟩
    · simp only [step]
      simpa using hjoin
    · simpa [step] using hsegs
    · intro _
      refine ⟨by simp [step], by simp [step], ?_⟩
      intro habs
      simp [step] at habs
  | cons b bs =>
    by_cases hcond : w.start - (((b :: bs).getLast?).map Word.stop).getD ss > mg ∨
        w.stop - ss > md ∨ w.speaker ≠ sp
    · have hstep : step f s mg md ⟨segs, b :: bs, ss, sp⟩ w =
          ⟨segs ++ [⟨sp, ss, (((b :: bs).getLast?).map Word.stop).getD ss,
            joinWords (b :: bs), f, s⟩], [w], w.start, w.speaker⟩ := by
        simp only [step]
        rw [if_pos hcond]
      rw [hstep]
      refine ⟨chunks ++ [b :: bs], ?_, ?_, ?_, ?_, ?_⟩
      · intro c hc
        rcases List.mem_append.1 hc with hc | hc
        · exact hne c hc
        · simp only [List.mem_singleton] at hc
          subst hc
          exact List.cons_ne_nil b bs
      · rw [List.flatten_append]
        simp only [List.flatten_cons, List.flatten_nil, List.append_nil]
        simp only [← hjoin, List.append_assoc]
      · simp only [List.map_append, List.map_cons, List.map_nil]
        rw [hsegs]
        have := emit_eq_segOfChunk f s md ⟨segs, b :: bs, ss, sp⟩ hbuf (by simp)
        simp only at this
        rw [this]
      · intro c hc
        rcases List.mem_append.1 hc with hc | hc
        · exact hch c hc
        · simp only [List.mem_singleton] at hc
          subst hc
          exact chunkOk_of_bufOk md ⟨segs, b :: bs, ss, sp⟩ hbuf (by simp)
      · intro _
        refine ⟨by simp, by simp, ?_⟩
        intro habs
        simp at habs
    · have hstep : step f s mg md ⟨segs, b :: bs, ss, sp⟩ w =
          ⟨segs, (b :: bs) ++ [w], ss, sp⟩ := by
        simp only [step]
        rw [if_neg hcond]
      rw [hstep]
      push_neg at hcond
      obtain ⟨-, hdur, -⟩ := hcond
      refine ⟨chunks, hne, ?_, hsegs, hch, ?_⟩
      · rw [← List.append_assoc]
        rw [hjoin]
      · intro _
        obtain ⟨h1, h2, _⟩ := hbuf (by simp)
        refine ⟨by simpa using h1, by simpa using h2, ?_⟩
        intro _
        rw [List.getLast?_concat]
        simpa using hdur

theorem foldl_inv (f s : String) (mg md : ℚ) :
    ∀ (ws p : List Word) (st : GState), Inv f s md p st →
      Inv f s md (p ++ ws) (ws.foldl (step f s mg md) st) := by
  intro ws
  induction ws with
  | nil =>
    intro p st h
    simpa using h
  | cons w ws ih =>
    intro p st h
    have h3 := ih (p ++ [w]) (step f s mg md st w) (step_inv f s mg md w p st h)
    simpa [List.append_assoc] using h3

/-- Every run of the segmenter is the image of a partition of the input into
consecutive non-empty chunks, each multi-word chunk spanning at most
`max_duration`. -/
theorem group_words_chunks (words : List Word) (f s : String) (mg md : ℚ) :
    ∃ chunks : List (List Word),
      (∀ c ∈ chunks, c ≠ []) ∧
      chunks.flatten = words ∧
      group_words_into_segments words f s mg md = chunks.map (segOfChunk f s) ∧
      ∀ c ∈ chunks, ChunkOk md c := by
  have h0 : Inv f s md [] ⟨[], [], 0, none⟩ := by
    refine ⟨[], by simp, by simp, by simp, by simp, ?_⟩
    intro habs
    simp at habs
  have h := foldl_inv f s mg md words [] ⟨[], [], 0, none⟩ h0
  simp only [List.nil_append] at h
  simp only [group_words_into_segments]
  obtain ⟨chunks, hne, hjoin, hsegs, hch, hbuf⟩ := h
  rcases hfb : (words.foldl (step f s mg md) ⟨[], [], 0, none⟩).buf with _ | ⟨b, bs⟩
  · rw [hfb] at hjoin
    refine ⟨chunks, hne, by simpa using hjoin, ?_, hch⟩
    simp only [hfb]
    exact hsegs
  · refine ⟨chunks ++ [b :: bs], ?_, ?_, ?_, ?_⟩
    · intro c hc
      rcases List.mem_append.1 hc with hc | hc
      · exact hne c hc
      · simp only [List.mem_singleton] at hc
        subst hc
        exact List.cons_ne_nil b bs
    · rw [List.flatten_append]
      simp only [List.flatten_cons, List.flatten_nil, List.append_nil]
      rw [← hfb]
      exact hjoin
    · simp only [hfb, List.map_append, List.map_cons, List.map_nil]
      rw [hsegs]
      have := emit_eq_segOfChunk f s md (words.foldl (step f s mg md) ⟨[], [], 0, none⟩)
        hbuf (by rw [hfb]; simp)
      rw [hfb] at this
      rw [this]
    · intro c hc
      rcases List.mem_append.1 hc with hc | hc
      · exact hch c hc
      · simp only [List.mem_singleton] at hc
        subst hc
        have := chunkOk_of_bufOk md (words.foldl (step f s mg md) ⟨[], [], 0, none⟩)
          hbuf (by rw [hfb]; simp)
        rwa [hfb] at this

/-! ## Claims about the segmenter -/

/-- C2: with a non-empty buffer, a word `w` flushes the buffer and opens a new
segment at `w` exactly when `w.start - lastWord.end > max_gap`, or
`w.end - seg_start > max_duration`, or `w.speaker` differs from the buffered
speaker, and is appended otherwise; and three same-speaker words at t = 0,
0.5 and 5.0 with `max_gap = 1` yield exactly two segments, words 1-2 then
word 3. -/
theorem segmenter_split_rule :
    (∀ (f s : String) (mg md : ℚ) (st : GState) (w : Word), st.buf ≠ [] →
      step f s mg md st w =
        if w.start - (((st.buf.getLast?).map Word.stop).getD st.seg_start) > mg ∨
            w.stop - st.seg_start > md ∨ w.speaker ≠ st.seg_speaker then
          { segments := st.segments ++
              [⟨st.seg_speaker, st.seg_start,
                (((st.buf.getLast?).map Word.stop).getD st.seg_start),
                joinWords st.buf, f, s⟩],
            buf := [w], seg_start := w.start, seg_speaker := w.speaker }
        else { st with buf := st.buf ++ [w] }) ∧
    group_words_into_segments
        [⟨"one", 0, 1/5, some "A"⟩, ⟨"two", 1/2, 7/10, some "A"⟩,
         ⟨"three", 5, 26/5, some "A"⟩] "f" "s" 1 20 =
      [⟨some "A", 0, 7/10, "one two", "f", "s"⟩,
       ⟨some "A", 5, 26/5, "three", "f", "s"⟩] := by
  constructor
  · intro f s mg md st w hne
    obtain ⟨segs, buf, ss, sp⟩ := st
    cases buf with
    | nil => exact absurd rfl hne
    | cons b bs => rfl
  · norm_num [group_words_into_segments, step, joinWords, String.intercalate]
    decide

/-- Witness for C2: the split rule applied to a concrete state whose gap
exceeds `max_gap`. -/
theorem segmenter_split_rule_witness :
    step "f" "s" 1 20 ⟨[], [⟨"one", 0, 1/5, some "A"⟩], 0, some "A"⟩
        ⟨"three", 5, 26/5, some "A"⟩ =
      { segments := [⟨some "A", 0, 1/5, "one", "f", "s"⟩],
        buf := [⟨"three", 5, 26/5, some "A"⟩], seg_start := 5,
        seg_speaker := some "A" } := by
  have h := segmenter_split_rule.1 "f" "s" 1 20
    ⟨[], [⟨"one", 0, 1/5, some "A"⟩], 0, some "A"⟩
    ⟨"three", 5, 26/5, some "A"⟩ (by simp)
  rw [h]
  norm_num [joinWords, String.intercalate]
  decide

/-- C3: concatenating the emitted segments' texts in order reconstructs the
exact sequence of input words' texts: the output is the image of a partition
of the input into consecutive non-empty chunks, each segment's text being the
whitespace-joined concatenation of its chunk's words in original order. -/
theorem segmenter_coverage (words : List Word) (f s : String) (mg md : ℚ) :
    ∃ chunks : List (List Word),
      (∀ c ∈ chunks, c ≠ []) ∧
      chunks.flatten = words ∧
      (chunks.map (fun c => c.map Word.word)).flatten = words.map Word.word ∧
      (group_words_into_segments words f s mg md).map Segment.text =
        chunks.map (fun c => String.intercalate " " (c.map Word.word)) := by
  obtain ⟨chunks, h1, h2, h3, -⟩ := group_words_chunks words f s mg md
  refine ⟨chunks, h1, h2, ?_, ?_⟩
  · rw [← List.map_flatten, h2]
  · rw [h3, List.map_map]
    rfl

/-- C4: an emitted segment can exceed `max_duration` (here a single word of
span 25 against the cap 20); the overshoot is at most the span of the
segment's final word, and the emitted segment's bounds are not trimmed back
to the cap. -/
theorem segment_exceeds_max_duration :
    group_words_into_segments [⟨"a", 0, 25, some "A"⟩] "f" "s" 1 20 =
      [⟨some "A", 0, 25, "a", "f", "s"⟩] ∧
    (25 : ℚ) - 0 > 20 ∧ (25 : ℚ) - 0 - 20 ≤ 25 - 0 := by
  refine ⟨?_, by norm_num, by norm_num⟩
  norm_num [group_words_into_segments, step, joinWords, String.intercalate]
  decide

/-- C9: every emitted segment either spans at most `max_duration` or consists
of a single input word (whose own start/stop/text it carries): a word joins a
non-empty buffer only when its end stays within `max_duration` of the
segment's start, so only single-word segments can exceed the cap. -/
theorem multiword_segment_within_cap (words : List Word) (f s : String)
    (mg md : ℚ) (seg : Segment)
    (hmem : seg ∈ group_words_into_segments words f s mg md) :
    seg.stop - seg.start ≤ md ∨
      ∃ w ∈ words, seg.start = w.start ∧ seg.stop = w.stop ∧ seg.text = w.word := by
  obtain ⟨chunks, h1, h2, h3, h4⟩ := group_words_chunks words f s mg md
  rw [h3] at hmem
  obtain ⟨c, hc, hcs⟩ := List.mem_map.1 hmem
  subst hcs
  rcases c with _ | ⟨w1, rest⟩
  · exact absurd rfl (h1 _ hc)
  rcases rest with _ | ⟨w2, rest2⟩
  · right
    refine ⟨w1, ?_, ?_, ?_, ?_⟩
    · rw [← h2]
      exact List.mem_flatten.2 ⟨[w1], hc, by simp⟩
    · simp [segOfChunk]
    · simp [segOfChunk]
    · rfl
  · left
    have := h4 _ hc (by simp)
    simpa [segOfChunk] using this

/-- Witness for C9: the cap disjunction at a concrete one-word input. -/
theorem multiword_segment_within_cap_witness :
    ⟨some "A", 0, 25, "a", "f", "s"⟩ ∈
        group_words_into_segments [⟨"a", (0 : ℚ), 25, some "A"⟩] "f" "s" 1 20 ∧
      ((25 : ℚ) - 0 ≤ 20 ∨
        ∃ w ∈ [(⟨"a", (0 : ℚ), 25, some "A"⟩ : Word)],
          (0 : ℚ) = w.start ∧ (25 : ℚ) = w.stop ∧ "a" = w.word) := by
  have hmem : (⟨some "A", 0, 25, "a", "f", "s"⟩ : Segment) ∈
      group_words_into_segments [⟨"a", (0 : ℚ), 25, some "A"⟩] "f" "s" 1 20 := by
    norm_num [group_words_into_segments, step, joinWords, String.intercalate]
    decide
  have h := multiword_segment_within_cap [⟨"a", (0 : ℚ), 25, some "A"⟩] "f" "s" 1 20
    ⟨some "A", 0, 25, "a", "f", "s"⟩ hmem
  exact ⟨hmem, h⟩

/-! ## Claims about redaction and indexing -/

/-- Toy embedding for concrete runs of `upsert_segments`: a text's vector is
the one-element list holding its length. -/
def embedLen (t : String) : List ℚ :=
  [(t.length : ℚ)]

/-- C1 (refuted by the code): upserting a whitespace-only segment followed by
a non-empty one yields a single record whose id and metadata belong to the
whitespace-only segment (position 0) while its vector is the embedding of the
other segment's text: `texts` is filtered before embedding but
`zip(segments, vectors)` pairs the unfiltered segments with the filtered
vectors. -/
theorem upsert_misaligned_on_empty_text :
    upsert_segments embedLen true
        [⟨some "0", 0, 1, " ", "f", "sess"⟩, ⟨some "0", 1, 2, "hello", "f", "sess"⟩] =
      [{ id := "sess:f:0", values := embedLen "hello",
         metadata := ⟨" ", "0", 0, 1, "f", "sess"⟩ }] ∧
    embedLen "hello" ≠ embedLen " " := by
  decide

/-- C6: the retrieval filter keeps exactly the matches with a non-null score
at least the threshold, is a sublist of its input (order preserved, nothing
duplicated), and retains a match whose score equals the threshold (the
comparison is inclusive). -/
theorem filter_threshold_inclusive :
    (∀ (ms : List Match) (thr : ℚ) (m : Match),
      m ∈ filtered_matches ms thr ↔ m ∈ ms ∧ ∃ sc : ℚ, m.score = some sc ∧ thr ≤ sc) ∧
    (∀ (ms : List Match) (thr : ℚ), (filtered_matches ms thr).Sublist ms) ∧
    (∀ (ms : List Match) (thr : ℚ) (m : Match), m ∈ ms → m.score = some thr →
      m ∈ filtered_matches ms thr) := by
  have hpred : ∀ (thr : ℚ) (m : Match),
      ((match m.score with
        | none => false
        | some sc => decide (sc ≥ thr)) = true) ↔ ∃ sc : ℚ, m.score = some sc ∧ thr ≤ sc := by
    intro thr m
    cases hs : m.score with
    | none => simp [hs]
    | some sc => simp [hs, ge_iff_le]
  refine ⟨?_, ?_, ?_⟩
  · intro ms thr m
    simp only [filtered_matches]
    rw [List.mem_filter]
    exact and_congr_right (fun _ => hpred thr m)
  · intro ms thr
    exact List.filter_sublist ms
  · intro ms thr m hm hsc
    simp only [filtered_matches]
    rw [List.mem_filter]
    exact ⟨hm, by simp [hsc]⟩

/-- Witness for C6: a match scoring exactly the threshold is retained. -/
theorem filter_threshold_inclusive_witness :
    (⟨"x", some (1/2), ⟨"", "unknown", 0, 0, "", ""⟩⟩ : Match) ∈
      filtered_matches [⟨"x", some (1/2), ⟨"", "unknown", 0, 0, "", ""⟩⟩] (1/2) :=
  filter_threshold_inclusive.2.2 _ (1/2) _ (List.mem_singleton.2 rfl) rfl

/-- C8: with redaction enabled, `redact_segments` returns a same-length list
whose i-th element copies the i-th input's speaker/start/stop/file/session
unchanged and has `redact` applied to its text (the input list itself is
untouched: a new list of new values is built). -/
theorem redact_segments_frame (segs : List Segment) :
    (redact_segments true segs).length = segs.length ∧
    ∀ i, i < segs.length →
      ((redact_segments true segs).getD i ⟨none, 0, 0, "", "", ""⟩).speaker =
          (segs.getD i ⟨none, 0, 0, "", "", ""⟩).speaker ∧
      ((redact_segments true segs).getD i ⟨none, 0, 0, "", "", ""⟩).start =
          (segs.getD i ⟨none, 0, 0, "", "", ""⟩).start ∧
      ((redact_segments true segs).getD i ⟨none, 0, 0, "", "", ""⟩).stop =
          (segs.getD i ⟨none, 0, 0, "", "", ""⟩).stop ∧
      ((redact_segments true segs).getD i ⟨none, 0, 0, "", "", ""⟩).file =
          (segs.getD i ⟨none, 0, 0, "", "", ""⟩).file ∧
      ((redact_segments true segs).getD i ⟨none, 0, 0, "", "", ""⟩).session =
          (segs.getD i ⟨none, 0, 0, "", "", ""⟩).session ∧
      ((redact_segments true segs).getD i ⟨none, 0, 0, "", "", ""⟩).text =
          Redactor.redact (segs.getD i ⟨none, 0, 0, "", "", ""⟩).text := by
  have hmap : redact_segments true segs = segs.map (fun s =>
      ⟨s.speaker, s.start, s.stop, Redactor.redact s.text, s.file, s.session⟩) := by
    simp [redact_segments]
  constructor
  · rw [hmap, List.length_map]
  · intro i hi
    rw [hmap]
    rw [List.getD_eq_getElem _ _ (by simpa : i < (segs.map _).length),
        List.getD_eq_getElem _ _ hi]
    rw [List.getElem_map]
    exact ⟨rfl, rfl, rfl, rfl, rfl, rfl⟩

/-- Witness for C8: the frame property at a concrete one-segment list. -/
theorem redact_segments_frame_witness :
    (redact_segments true [(⟨some "0", 1, 2, "a", "fl", "ss"⟩ : Segment)]).length =
        [(⟨some "0", 1, 2, "a", "fl", "ss"⟩ : Segment)].length ∧
    (((redact_segments true [(⟨some "0", 1, 2, "a", "fl", "ss"⟩ : Segment)]).getD 0
          ⟨none, 0, 0, "", "", ""⟩).speaker =
        ([(⟨some "0", 1, 2, "a", "fl", "ss"⟩ : Segment)].getD 0
          ⟨none, 0, 0, "", "", ""⟩).speaker ∧
      ((redact_segments true [(⟨some "0", 1, 2, "a", "fl", "ss"⟩ : Segment)]).getD 0
          ⟨none, 0, 0, "", "", ""⟩).start =
        ([(⟨some "0", 1, 2, "a", "fl", "ss"⟩ : Segment)].getD 0
          ⟨none, 0, 0, "", "", ""⟩).start ∧
      ((redact_segments true [(⟨some "0", 1, 2, "a", "fl", "ss"⟩ : Segment)]).getD 0
          ⟨none, 0, 0, "", "", ""⟩).stop =
        ([(⟨some "0", 1, 2, "a", "fl", "ss"⟩ : Segment)].getD 0
          ⟨none, 0, 0, "", "", ""⟩).stop ∧
      ((redact_segments true [(⟨some "0", 1, 2, "a", "fl", "ss"⟩ : Segment)]).getD 0
          ⟨none, 0, 0, "", "", ""⟩).file =
        ([(⟨some "0", 1, 2, "a", "fl", "ss"⟩ : Segment)].getD 0
          ⟨none, 0, 0, "", "", ""⟩).file ∧
      ((redact_segments true [(⟨some "0", 1, 2, "a", "fl", "ss"⟩ : Segment)]).getD 0
          ⟨none, 0, 0, "", "", ""⟩).session =
        ([(⟨some "0", 1, 2, "a", "fl", "ss"⟩ : Segment)].getD 0
          ⟨none, 0, 0, "", "", ""⟩).session ∧
      ((redact_segments true [(⟨some "0", 1, 2, "a", "fl", "ss"⟩ : Segment)]).getD 0
          ⟨none, 0, 0, "", "", ""⟩).text =
        Redactor.redact
          ([(⟨some "0", 1, 2, "a", "fl", "ss"⟩ : Segment)].getD 0
            ⟨none, 0, 0, "", "", ""⟩).text) :=
  ⟨(redact_segments_frame _).1, (redact_segments_frame _).2 0 (by simp)⟩

/-! ## Lemmas about `dcg` and `ndcg_at_k`

`dcg` is rephrased as a position-weighted sum `wsum`, with weight
`w i = 1 / log2(i + 2)`, which is positive and antitone. -/

/-- Position-weighted sum: `wsum w [g0, g1, ...] = g0 * w 0 + g1 * w 1 + ...`. -/
def wsum (w : ℕ → ℝ) : List ℝ → ℝ
  | [] => 0
  | a :: t => a * w 0 + wsum (fun i => w (i + 1)) t

theorem enumFrom_map_sum (w : ℕ → ℝ) (l : List ℝ) : ∀ n : ℕ,
    ((List.enumFrom n l).map (fun p => p.2 * w p.1)).sum = wsum (fun i => w (n + i)) l := by
  induction l with
  | nil => intro n; simp [wsum]
  | cons a t ih =>
    intro n
    simp only [List.enumFrom, List.map_cons, List.sum_cons, wsum]
    rw [ih (n + 1)]
    have hshift : (fun i => w (n + 1 + i)) = (fun i => w (n + (i + 1))) := by
      funext i
      congr 1
      omega
    rw [hshift]
    norm_num

theorem dcg_eq_wsum (l : List ℝ) :
    dcg l = wsum (fun i => 1 / Real.logb 2 ((i : ℝ) + 2)) l := by
  have harg : (fun p : ℕ × ℝ => p.2 / Real.logb 2 ((p.1 : ℝ) + 2)) =
      (fun p : ℕ × ℝ => p.2 * (1 / Real.logb 2 ((p.1 : ℝ) + 2))) := by
    funext p
    rw [mul_one_div]
  have h := enumFrom_map_sum (fun i => 1 / Real.logb 2 ((i : ℝ) + 2)) l 0
  have hzero : (fun i => 1 / Real.logb 2 (((0 + i : ℕ) : ℝ) + 2)) =
      (fun i : ℕ => 1 / Real.logb 2 ((i : ℝ) + 2)) := by
    funext i
    norm_num
  rw [dcg, List.enum, harg]
  rw [h, hzero]

theorem wsum_eq_sum_range (l : List ℝ) : ∀ w : ℕ → ℝ,
    wsum w l = ∑ i in Finset.range l.length, l.getD i 0 * w i := by
  induction l with
  | nil => intro w; simp [wsum]
  | cons a t ih =>
    intro w
    simp only [wsum, List.length_cons]
    rw [ih (fun i => w (i + 1)), Finset.sum_range_succ']
    simp only [List.getD_cons_succ, List.getD_cons_zero]
    ring

theorem dcg_eq_sum_range (l : List ℝ) :
    dcg l = ∑ i in Finset.range l.length, l.getD i 0 / Real.logb 2 ((i : ℝ) + 2) := by
  rw [dcg_eq_wsum, wsum_eq_sum_range]
  refine Finset.sum_congr rfl ?_
  intro i _
  rw [mul_one_div]

theorem wsum_nonneg (l : List ℝ) : ∀ w : ℕ → ℝ, (∀ i, 0 ≤ w i) →
    (∀ x ∈ l, 0 ≤ x) → 0 ≤ wsum w l := by
  induction l with
  | nil => intro w _ _; simp [wsum]
  | cons a t ih =>
    intro w hw hl
    have h1 : 0 ≤ a * w 0 :=
      mul_nonneg (hl a (List.mem_cons_self a t)) (hw 0)
    have h2 : 0 ≤ wsum (fun i => w (i + 1)) t :=
      ih _ (fun i => hw (i + 1)) (fun x hx => hl x (List.mem_cons_of_mem a hx))
    simpa [wsum] using add_nonneg h1 h2

/-- Key bound: for binary gains, the weighted sum is at most the sum of the
first `m` weights, `m` the number of ones, provided the weights are
nonnegative and antitone. -/
theorem wsum_le_sum_range (l : List ℝ) : ∀ w : ℕ → ℝ, (∀ i, w (i + 1) ≤ w i) →
    (∀ i, 0 ≤ w i) → (∀ x ∈ l, x = 0 ∨ x = 1) →
    wsum w l ≤ ∑ i in Finset.range (l.countP (fun x => decide (x = 1))), w i := by
  induction l with
  | nil => intro w _ _ _; simp [wsum]
  | cons a t ih =>
    intro w hmono hnn hbin
    have iht := ih (fun i => w (i + 1)) (fun i => hmono (i + 1)) (fun i => hnn (i + 1))
      (fun x hx => hbin x (List.mem_cons_of_mem a hx))
    rcases hbin a (List.mem_cons_self a t) with ha | ha
    · subst ha
      have hcount : (List.countP (fun x => decide (x = 1)) ((0 : ℝ) :: t)) =
          t.countP (fun x => decide (x = 1)) := by
        rw [List.countP_cons]
        norm_num
      rw [hcount]
      have hle2 : ∑ i in Finset.range (t.countP (fun x => decide (x = 1))), w (i + 1) ≤
          ∑ i in Finset.range (t.countP (fun x => decide (x = 1))), w i :=
        Finset.sum_le_sum (fun i _ => hmono i)
      calc wsum w ((0 : ℝ) :: t) = wsum (fun i => w (i + 1)) t := by simp [wsum]
        _ ≤ ∑ i in Finset.range (t.countP (fun x => decide (x = 1))), w (i + 1) := iht
        _ ≤ ∑ i in Finset.range (t.countP (fun x => decide (x = 1))), w i := hle2
    · subst ha
      have hcount : (List.countP (fun x => decide (x = 1)) ((1 : ℝ) :: t)) =
          t.countP (fun x => decide (x = 1)) + 1 := by
        rw [List.countP_cons]
        norm_num
      rw [hcount, Finset.sum_range_succ']
      have : wsum w ((1 : ℝ) :: t) = w 0 + wsum (fun i => w (i + 1)) t := by
        simp [wsum]
      rw [this]
      have := iht
      linarith

theorem orderedInsert_zero (z : ℕ) : ∀ m : ℕ,
    List.orderedInsert (fun a b => b ≤ a) (0 : ℝ)
        (List.replicate m 1 ++ List.replicate z 0) =
      List.replicate m 1 ++ List.replicate (z + 1) 0 := by
  intro m
  induction m with
  | zero =>
    cases z with
    | zero => simp [List.orderedInsert]
    | succ z' => simp [List.replicate_succ, List.orderedInsert]
  | succ m ih =>
    simp only [List.replicate_succ, List.cons_append, List.orderedInsert]
    rw [if_neg (by norm_num)]
    simp only [List.append_eq]
    rw [ih]
    simp [List.replicate_succ]

theorem orderedInsert_one (s : List ℝ) (hle : ∀ x ∈ s, x ≤ 1) :
    List.orderedInsert (fun a b => b ≤ a) (1 : ℝ) s = 1 :: s := by
  cases s with
  | nil => simp [List.orderedInsert]
  | cons c t =>
    simp only [List.orderedInsert]
    rw [if_pos (hle c (List.mem_cons_self c t))]

/-- Sorting a binary list in descending order yields ones then zeros. -/
theorem insertionSort_binary (l : List ℝ) (hbin : ∀ x ∈ l, x = 0 ∨ x = 1) :
    List.insertionSort (fun a b => b ≤ a) l =
      List.replicate (l.countP (fun x => decide (x = 1))) (1 : ℝ) ++
        List.replicate (l.length - l.countP (fun x => decide (x = 1))) (0 : ℝ) := by
  induction l with
  | nil => simp [List.insertionSort]
  | cons a t ih =>
    have iht := ih (fun x hx => hbin x (List.mem_cons_of_mem a hx))
    have hm : t.countP (fun x => decide (x = 1)) ≤ t.length := List.countP_le_length _
    rcases hbin a (List.mem_cons_self a t) with ha | ha
    · subst ha
      have hcount : (List.countP (fun x => decide (x = 1)) ((0 : ℝ) :: t)) =
          t.countP (fun x => decide (x = 1)) := by
        rw [List.countP_cons]
        norm_num
      simp only [List.insertionSort, iht, hcount]
      rw [orderedInsert_zero]
      have hlen : ((0 : ℝ) :: t).length - t.countP (fun x => decide (x = 1)) =
          (t.length - t.countP (fun x => decide (x = 1))) + 1 := by
        simp only [List.length_cons]
        omega
      rw [hlen]
    · subst ha
      have hcount : (List.countP (fun x => decide (x = 1)) ((1 : ℝ) :: t)) =
          t.countP (fun x => decide (x = 1)) + 1 := by
        rw [List.countP_cons]
        norm_num
      simp only [List.insertionSort, iht, hcount]
      rw [orderedInsert_one]
      · have hlen : ((1 : ℝ) :: t).length - (t.countP (fun x => decide (x = 1)) + 1) =
            t.length - t.countP (fun x => decide (x = 1)) := by
          simp only [List.length_cons]
          omega
        rw [hlen, List.replicate_succ]
        simp [List.cons_append]
      · intro x hx
        rcases List.mem_append.1 hx with hx | hx
        · rw [List.eq_of_mem_replicate hx]
        · rw [List.eq_of_mem_replicate hx]
          norm_num

theorem wsum_replicate_zero (z : ℕ) : ∀ w : ℕ → ℝ,
    wsum w (List.replicate z 0) = 0 := by
  induction z with
  | zero => intro w; simp [wsum]
  | succ z ih =>
    intro w
    simp only [List.replicate_succ, wsum]
    rw [ih]
    ring

theorem wsum_replicate (z : ℕ) : ∀ (m : ℕ) (w : ℕ → ℝ),
    wsum w (List.replicate m 1 ++ List.replicate z 0) = ∑ i in Finset.range m, w i := by
  intro m
  induction m with
  | zero =>
    intro w
    simpa using wsum_replicate_zero z w
  | succ m ih =>
    intro w
    simp only [List.replicate_succ, List.cons_append, wsum, List.append_eq]
    rw [ih (fun i => w (i + 1)), Finset.sum_range_succ']
    ring

theorem logWeight_pos (i : ℕ) : 0 < Real.logb 2 ((i : ℝ) + 2) := by
  have hc : (0 : ℝ) ≤ (i : ℝ) := Nat.cast_nonneg i
  exact Real.logb_pos (by norm_num) (by linarith)

theorem logWeight_nonneg (i : ℕ) : 0 ≤ 1 / Real.logb 2 ((i : ℝ) + 2) :=
  le_of_lt (div_pos one_pos (logWeight_pos i))

theorem logWeight_antitone (i : ℕ) :
    1 / Real.logb 2 (((i + 1 : ℕ) : ℝ) + 2) ≤ 1 / Real.logb 2 ((i : ℝ) + 2) := by
  have h1 : 0 < Real.logb 2 ((i : ℝ) + 2) := logWeight_pos i
  refine one_div_le_one_div_of_le h1 ?_
  refine Real.logb_le_logb_of_le (by norm_num) ?_ ?_
  · have hc : (0 : ℝ) ≤ (i : ℝ) := Nat.cast_nonneg i
    linarith
  · push_cast
    linarith

theorem gains_binary (pred_ids : List String) (gold_ids : Finset String) (n : ℕ) :
    ∀ x ∈ (pred_ids.take n).map (fun pid => if pid ∈ gold_ids then (1 : ℝ) else 0),
      x = 0 ∨ x = 1 := by
  intro x hx
  obtain ⟨pid, -, hpid⟩ := List.mem_map.1 hx
  by_cases hmem : pid ∈ gold_ids
  · right
    rw [← hpid, if_pos hmem]
  · left
    rw [← hpid, if_neg hmem]

/-- Unfolding of `ndcg_at_k` off the `k <= 0` guard. -/
theorem ndcg_eq (pred_ids : List String) (gold_ids : Finset String) (k : ℤ)
    (hk : ¬ k ≤ 0) :
    ndcg_at_k pred_ids gold_ids k =
      (if dcg (List.insertionSort (fun a b => b ≤ a)
            ((pred_ids.take k.toNat).map (fun pid => if pid ∈ gold_ids then (1 : ℝ) else 0))) = 0
       then 0
       else dcg ((pred_ids.take k.toNat).map (fun pid => if pid ∈ gold_ids then (1 : ℝ) else 0)) /
          dcg (List.insertionSort (fun a b => b ≤ a)
            ((pred_ids.take k.toNat).map (fun pid => if pid ∈ gold_ids then (1 : ℝ) else 0)))) := by
  simp only [ndcg_at_k, if_neg hk]

/-- C10: `ndcg_at_k` always returns a value in `[0, 1]`: the DCG of the
binary gains never exceeds the DCG of the same gains sorted descending
(the weights `1/log2(i+2)` are positive and antitone), and all gains are
nonnegative. -/
theorem ndcg_bounds (pred_ids : List String) (gold_ids : Finset String) (k : ℤ) :
    0 ≤ ndcg_at_k pred_ids gold_ids k ∧ ndcg_at_k pred_ids gold_ids k ≤ 1 := by
  by_cases hk : k ≤ 0
  · rw [ndcg_at_k, if_pos hk]
    norm_num
  · rw [ndcg_eq pred_ids gold_ids k hk]
    set gains : List ℝ :=
      (pred_ids.take k.toNat).map (fun pid => if pid ∈ gold_ids then (1 : ℝ) else 0) with hg
    have hbin : ∀ x ∈ gains, x = 0 ∨ x = 1 := gains_binary pred_ids gold_ids k.toNat
    have hnn : ∀ x ∈ gains, 0 ≤ x := by
      intro x hx
      rcases hbin x hx with h | h <;> simp [h]
    have hsorted : List.insertionSort (fun a b => b ≤ a) gains =
        List.replicate (gains.countP (fun x => decide (x = 1))) 1 ++
          List.replicate (gains.length - gains.countP (fun x => decide (x = 1))) 0 :=
      insertionSort_binary gains hbin
    have hidcg : dcg (List.insertionSort (fun a b => b ≤ a) gains) =
        ∑ i in Finset.range (gains.countP (fun x => decide (x = 1))),
          1 / Real.logb 2 ((i : ℝ) + 2) := by
      rw [hsorted, dcg_eq_wsum, wsum_replicate]
    have hdcg0 : 0 ≤ dcg gains := by
      rw [dcg_eq_wsum]
      exact wsum_nonneg gains _ logWeight_nonneg hnn
    have hdcgle : dcg gains ≤ dcg (List.insertionSort (fun a b => b ≤ a) gains) := by
      rw [hidcg, dcg_eq_wsum]
      exact wsum_le_sum_range gains _ logWeight_antitone logWeight_nonneg hbin
    have hidcg_nonneg : 0 ≤ dcg (List.insertionSort (fun a b => b ≤ a) gains) :=
      le_trans hdcg0 hdcgle
    by_cases hz : dcg (List.insertionSort (fun a b => b ≤ a) gains) = 0
    · rw [if_pos hz]
      norm_num
    · rw [if_neg hz]
      have hpos : 0 < dcg (List.insertionSort (fun a b => b ≤ a) gains) :=
        lt_of_le_of_ne hidcg_nonneg (Ne.symm hz)
      exact ⟨div_nonneg hdcg0 hidcg_nonneg, (div_le_one hpos).2 hdcgle⟩

/-- C5: `ndcg_at_k` returns `0` for `k <= 0`; otherwise it is the binary-gain
DCG of the first `k` predictions divided by the DCG of the same gains sorted
descending (`0` when that ideal DCG is `0`); and on
`pred = ["a","b","c"], gold = {"b"}, k = 3` it evaluates to `1/log2 3`. -/
theorem ndcg_formula :
    (∀ (pred_ids : List String) (gold_ids : Finset String) (k : ℤ), k ≤ 0 →
      ndcg_at_k pred_ids gold_ids k = 0) ∧
    (∀ (pred_ids : List String) (gold_ids : Finset String) (k : ℤ), 0 < k →
      ∀ ideal : List ℝ,
        List.Perm ((pred_ids.take k.toNat).map
          (fun pid => if pid ∈ gold_ids then (1 : ℝ) else 0)) ideal →
        ideal.Sorted (fun a b => b ≤ a) →
        ndcg_at_k pred_ids gold_ids k =
          if (∑ i in Finset.range ideal.length,
                ideal.getD i 0 / Real.logb 2 ((i : ℝ) + 2)) = 0 then 0
          else (∑ i in Finset.range ((pred_ids.take k.toNat).map
                  (fun pid => if pid ∈ gold_ids then (1 : ℝ) else 0)).length,
                  ((pred_ids.take k.toNat).map
                    (fun pid => if pid ∈ gold_ids then (1 : ℝ) else 0)).getD i 0 /
                    Real.logb 2 ((i : ℝ) + 2)) /
               (∑ i in Finset.range ideal.length,
                  ideal.getD i 0 / Real.logb 2 ((i : ℝ) + 2))) ∧
    ndcg_at_k ["a", "b", "c"] {"b"} 3 = 1 / Real.logb 2 3 := by
  haveI hTot : IsTotal ℝ (fun a b : ℝ => b ≤ a) := ⟨fun a b => le_total b a⟩
  haveI hTrans : IsTrans ℝ (fun a b : ℝ => b ≤ a) := ⟨fun a b c h1 h2 => le_trans h2 h1⟩
  haveI hAnti : IsAntisymm ℝ (fun a b : ℝ => b ≤ a) := ⟨fun a b h1 h2 => le_antisymm h2 h1⟩
  refine ⟨?_, ?_, ?_⟩
  · intro pred_ids gold_ids k hk
    rw [ndcg_at_k, if_pos hk]
  · intro pred_ids gold_ids k hk ideal hperm hsorted
    have heq : List.insertionSort (fun a b => b ≤ a)
        ((pred_ids.take k.toNat).map
          (fun pid => if pid ∈ gold_ids then (1 : ℝ) else 0)) = ideal :=
      List.eq_of_perm_of_sorted
        ((List.perm_insertionSort _ _).trans hperm)
        (List.sorted_insertionSort _ _) hsorted
    rw [ndcg_eq pred_ids gold_ids k (not_le.2 hk), heq, dcg_eq_sum_range,
      dcg_eq_sum_range]
  · have hk : ¬ (3 : ℤ) ≤ 0 := by norm_num
    rw [ndcg_eq _ _ _ hk]
    have hg : ((["a", "b", "c"].take (3 : ℤ).toNat).map
        (fun pid => if pid ∈ ({"b"} : Finset String) then (1 : ℝ) else 0)) =
        [0, 1, 0] := by
      norm_num [List.take]
      decide
    rw [hg]
    have hsort : List.insertionSort (fun a b => b ≤ a) ([0, 1, 0] : List ℝ) =
        [1, 0, 0] := by
      norm_num [List.insertionSort, List.orderedInsert]
    rw [hsort]
    have hd1 : dcg [(1 : ℝ), 0, 0] = 1 := by
      simp [dcg, List.enum, List.enumFrom]
    have hd2 : dcg [(0 : ℝ), 1, 0] = 1 / Real.logb 2 3 := by
      simp [dcg, List.enum, List.enumFrom]
      norm_num
    rw [hd1, hd2, if_neg one_ne_zero, div_one]

/-- Witness for C5: the guard clause and the general formula applied at
concrete inputs. -/
theorem ndcg_formula_witness :
    ndcg_at_k [] (∅ : Finset String) 0 = 0 ∧
    ndcg_at_k ["a"] (∅ : Finset String) 1 = 0 := by
  constructor
  · exact ndcg_formula.1 [] ∅ 0 (by norm_num)
  · have hg : ((["a"].take (1 : ℤ).toNat).map
        (fun pid => if pid ∈ (∅ : Finset String) then (1 : ℝ) else 0)) = [0] := by
      norm_num [List.take]
    have h := ndcg_formula.2.1 ["a"] ∅ 1 (by norm_num) [0]
      (by rw [hg]) (by simp)
    rw [h]
    norm_num

/-- C7: redacting `"call me at 555-123-4567 or a@b.com"` with the ordered
rules (card, SSN, email, phone, IP, each substituting all non-overlapping
matches) yields `"call me at [PHONE] or [EMAIL]"`, which contains the
`[PHONE]` and `[EMAIL]` placeholders and retains neither the raw phone digit
sequence nor the email substring. -/
theorem redact_example :
    Redactor.redact "call me at 555-123-4567 or a@b.com" =
      "call me at [PHONE] or [EMAIL]" ∧
    "[PHONE]".data <:+: (Redactor.redact "call me at 555-123-4567 or a@b.com").data ∧
    "[EMAIL]".data <:+: (Redactor.redact "call me at 555-123-4567 or a@b.com").data ∧
    ¬ "555-123-4567".data <:+: (Redactor.redact "call me at 555-123-4567 or a@b.com").data ∧
    ¬ "a@b.com".data <:+: (Redactor.redact "call me at 555-123-4567 or a@b.com").data := by
  have h : Redactor.redact "call me at 555-123-4567 or a@b.com" =
      "call me at [PHONE] or [EMAIL]" := by decide
  refine ⟨h, ?_, ?_, ?_, ?_⟩ <;> (rw [h]; decide)

end VoiceArchive
